import Mathlib

/-!
Verification of the history store, autosave pipeline and persistence
protocol of the creative-suite repository.

The history store is `useHistory` (src/hooks/useAutoSave.ts, second
section): an ordered sequence of snapshots plus a cursor, with
commit/undo/redo/reset/loadHistory operations.  The commit operation
(`setState` in the source) de-duplicates via `JSON.stringify` equality,
which we model by an abstract serialization function `serial : T → String`.
The `limit` option is a JavaScript number defaulting to `Infinity`; we
model it as `Option Nat`, `none` standing for `Infinity`.
-/

namespace CreativeSuite

/-- A history store value: `history` and `currentIndex` of `useHistory`
(src/hooks/useAutoSave.ts lines 80-81). -/
structure HistoryStore (T : Type) where
  history : List T
  currentIndex : Nat
deriving DecidableEq, Repr

/-- `n > limit` for a JavaScript limit that may be `Infinity` (`none`).
Any finite `n` satisfies `n > Infinity = false`. -/
def overLimit (limit : Option Nat) (n : Nat) : Bool :=
  match limit with
  | none => false
  | some L => L < n

/-- The eviction loop of `setState`:
`while (newHistory.length > limit) { newHistory.shift(); }`
(src/hooks/useAutoSave.ts lines 97-99).  Removes the first element while
the length exceeds the limit. -/
def evict (limit : Option Nat) : List T → List T
  | [] => []
  | x :: xs => if overLimit limit (x :: xs).length then evict limit xs else x :: xs

/-- `state = history[currentIndex]` (src/hooks/useAutoSave.ts line 83).
Under the store invariant the index is always in bounds, so the default
value is never consulted. -/
def HistoryStore.current [Inhabited T] (st : HistoryStore T) : T :=
  st.history.getD st.currentIndex default

/-- The commit operation `setState` of `useHistory`
(src/hooks/useAutoSave.ts lines 85-103) applied to an already resolved
next state: no-op when the serialized forms coincide, otherwise truncate
to `[0..currentIndex]`, append, evict from the front while over the
limit, and point the cursor at the new last index. -/
def setState [Inhabited T] (serial : T → String) (limit : Option Nat)
    (st : HistoryStore T) (resolvedState : T) : HistoryStore T :=
  if serial resolvedState = serial st.current then st
  else
    let newHistory := evict limit (st.history.take (st.currentIndex + 1) ++ [resolvedState])
    ⟨newHistory, newHistory.length - 1⟩

/-- `undo` of `useHistory` (src/hooks/useAutoSave.ts lines 105-109). -/
def undo (st : HistoryStore T) : HistoryStore T :=
  if 0 < st.currentIndex then ⟨st.history, st.currentIndex - 1⟩ else st

/-- `redo` of `useHistory` (src/hooks/useAutoSave.ts lines 111-115). -/
def redo (st : HistoryStore T) : HistoryStore T :=
  if st.currentIndex < st.history.length - 1 then ⟨st.history, st.currentIndex + 1⟩ else st

/-- `reset` of `useHistory` (src/hooks/useAutoSave.ts lines 117-120). -/
def reset (_st : HistoryStore T) (newState : T) : HistoryStore T :=
  ⟨[newState], 0⟩

/-- `loadHistory` of `useHistory` (src/hooks/useAutoSave.ts lines 122-127).
The JavaScript index may be negative, so it is modelled as `Int`. -/
def loadHistory (st : HistoryStore T) (newHistory : List T) (newIndex : Int) :
    HistoryStore T :=
  if 0 < newHistory.length ∧ 0 ≤ newIndex ∧ newIndex < (newHistory.length : Int) then
    ⟨newHistory, newIndex.toNat⟩
  else st

/-- Number of entries the eviction loop removes from a list of length `n`. -/
def evictedCount (limit : Option Nat) (n : Nat) : Nat :=
  match limit with
  | none => 0
  | some L => n - L

/-- The store invariant from the spec: `length ≥ 1` and
`0 ≤ cursor < length`. -/
def Inv (st : HistoryStore T) : Prop :=
  1 ≤ st.history.length ∧ st.currentIndex < st.history.length

instance (st : HistoryStore T) : Decidable (Inv st) := by
  unfold Inv; infer_instance

/-- The spec precondition `L ≥ 1` on the configured limit (`Infinity`
counts as admissible). -/
def limitOK (limit : Option Nat) : Bool :=
  match limit with
  | none => true
  | some L => 1 ≤ L

/-- Sequential commits: left fold of `setState`. -/
def commitMany [Inhabited T] (serial : T → String) (limit : Option Nat)
    (st : HistoryStore T) (cs : List T) : HistoryStore T :=
  cs.foldl (setState serial limit) st

/-- `n` successive calls of `undo`. -/
def undoCalls : Nat → HistoryStore T → HistoryStore T
  | 0, st => st
  | n + 1, st => undoCalls n (undo st)

/-- Each element of `cs` differs (under `serial`) from its predecessor,
the first one differing from `a`: the hypothesis making a sequence of
commits all "distinct". -/
def chainDistinct (serial : T → String) : T → List T → Bool
  | _, [] => true
  | a, b :: rest => (serial a != serial b) && chainDistinct serial b rest

/-- The spec-side bound `n ≤ limit` (with `none` = `Infinity`). -/
def withinLimit (limit : Option Nat) (n : Nat) : Bool :=
  match limit with
  | none => true
  | some L => n ≤ L

/-!
Persistence protocol of the photo editor (src/components/PhotoEditor.tsx).

A `File` value is a binary handle; the serialization boundary replaces it
by a data-URL placeholder produced by the platform codec
(`FileReader.readAsDataURL` on the way out, `fetch` + `new File` in
`dataUrlToFile`, src/utils/fileUtils.ts lines 16-20, on the way back).
The platform codec itself is a browser collaborator, not repository code;
it is modelled here by an executable data-URL printer/parser whose payload
section is an injective byte-to-digit rendering standing in for base64.
-/

/-- A binary file handle: logical name, mime type and content bytes. -/
structure FileHandle where
  name : String
  mime : String
  content : List Nat
deriving DecidableEq

/-- `PhotoEditorState` (src/components/PhotoEditor.tsx lines 26-31). -/
structure PhotoEditorState where
  originalFile : Option FileHandle
  imageSrc : Option String
  editedImageSrc : Option String
  activeFilter : String
deriving DecidableEq

/-- The `originalFileData` placeholder written by `getSerializableState`
(src/components/PhotoEditor.tsx line 81). -/
structure OriginalFileData where
  dataUrl : String
  name : String
deriving DecidableEq

/-- One serialized snapshot: the spread of the state with `originalFile`
cleared and an optional `originalFileData` placeholder
(src/components/PhotoEditor.tsx lines 71 and 78-82). -/
structure SerializableSnapshot where
  originalFile : Option FileHandle
  imageSrc : Option String
  editedImageSrc : Option String
  activeFilter : String
  originalFileData : Option OriginalFileData
deriving DecidableEq

/-- The persisted record `{ history, currentIndex }`
(src/components/PhotoEditor.tsx line 84). -/
structure PersistedRecord where
  history : List SerializableSnapshot
  currentIndex : Int
deriving DecidableEq

/-- JavaScript falsiness of a `string | null` value: `null` and `""` are
falsy (the `!historyToSave[0].imageSrc` check). -/
def strFalsy : Option String → Bool
  | none => true
  | some s => s == ""

/-- Decimal digit character (modelled platform codec payload alphabet):
code point 48 + d for a digit value d. -/
def digitChar (d : Nat) : Char := Char.ofNat (48 + d)

/-- Inverse of `digitChar`: the digit value of a decimal digit character,
failing on anything outside the code-point range 48-57. -/
def charVal (c : Char) : Option Nat :=
  if 48 ≤ c.toNat ∧ c.toNat ≤ 57 then some (c.toNat - 48) else none

/-- Three-digit rendering of one content byte (modelled platform codec). -/
def byteChars (b : Nat) : List Char :=
  [digitChar (b / 100), digitChar (b / 10 % 10), digitChar (b % 10)]

/-- Payload rendering of a byte sequence (modelled platform codec: stands
in for the base64 body produced by `FileReader.readAsDataURL`). -/
def encBytes : List Nat → List Char
  | [] => []
  | b :: rest => byteChars b ++ encBytes rest

/-- Payload parsing, fail-fast on any malformed group (modelled platform
codec: stands in for base64 decoding inside `fetch` of a data URL). -/
def parseBytes : List Char → Option (List Nat)
  | [] => some []
  | a :: b :: c :: rest =>
    match charVal a, charVal b, charVal c, parseBytes rest with
    | some x, some y, some z, some vs => some ((100 * x + 10 * y + z) :: vs)
    | _, _, _, _ => none
  | _ => none

/-- The characters `data:` opening a data URL. -/
def dataUrlHead : List Char := ['d', 'a', 't', 'a', ':']

/-- The characters `;base64,` separating the mime type from the payload. -/
def base64Marker : List Char := [';', 'b', 'a', 's', 'e', '6', '4', ',']

/-- Modelled platform codec, encode direction (`FileReader.readAsDataURL`
in `getSerializableState`, src/components/PhotoEditor.tsx lines 72-77):
`data:<mime>;base64,<payload>` as a character list. -/
def encodeDataUrlChars (f : FileHandle) : List Char :=
  dataUrlHead ++ f.mime.data ++ base64Marker ++ encBytes f.content

/-- Modelled platform codec, encode direction, as a string. -/
def encodeDataUrl (f : FileHandle) : String :=
  String.mk (encodeDataUrlChars f)

/-- Strip an expected literal head from a character list, failing when the
input does not start with it. -/
def stripHead : List Char → List Char → Option (List Char)
  | [], rest => some rest
  | _ :: _, [] => none
  | e :: es, c :: cs => if c = e then stripHead es cs else none

/-- Modelled platform codec, decode direction: parse a
`data:<mime>;base64,<payload>` character list into mime and bytes,
failing on any malformed input (the `fetch(dataUrl)` step). -/
def parseDataUrlChars (cs : List Char) : Option (String × List Nat) :=
  (stripHead dataUrlHead cs).bind fun rest =>
    (stripHead base64Marker (rest.dropWhile (fun c => c != ';'))).bind fun body =>
      (parseBytes body).map fun bs =>
        (String.mk (rest.takeWhile (fun c => c != ';')), bs)

/-- `dataUrlToFile` (src/utils/fileUtils.ts lines 16-20): reconstruct a
`File` from a data URL and a file name; the browser `fetch` of a malformed
data URL rejects, modelled by `none`. -/
def dataUrlToFile (dataUrl : String) (filename : String) : Option FileHandle :=
  (parseDataUrlChars dataUrl.data).map fun mb => ⟨filename, mb.1, mb.2⟩

/-- Per-snapshot serialization step of `getSerializableState`
(src/components/PhotoEditor.tsx lines 70-83): clear `originalFile` and, when
a file is present, add the `originalFileData` placeholder. -/
def serializeSnapshot (h : PhotoEditorState) : SerializableSnapshot :=
  match h.originalFile with
  | none => ⟨none, h.imageSrc, h.editedImageSrc, h.activeFilter, none⟩
  | some f => ⟨none, h.imageSrc, h.editedImageSrc, h.activeFilter,
      some ⟨encodeDataUrl f, f.name⟩⟩

/-- `getSerializableState` (src/components/PhotoEditor.tsx lines 67-85):
returns `null` ("nothing to persist") when the sequence is empty or the
FIRST snapshot's `imageSrc` is falsy; otherwise the serialized record. -/
def getSerializableState (historyToSave : List PhotoEditorState)
    (indexToSave : Int) : Option PersistedRecord :=
  match historyToSave with
  | [] => none
  | h0 :: _ =>
    if strFalsy h0.imageSrc then none
    else some ⟨historyToSave.map serializeSnapshot, indexToSave⟩

/-- `handleAutoSave` (src/components/PhotoEditor.tsx lines 87-92): writes the
serialized record to the durable slot only when serialization produced one,
otherwise leaves the slot untouched. The slot models the
`localStorage` value under `AUTO_SAVE_KEY`. -/
def handleAutoSave (slot : Option PersistedRecord)
    (hist : List PhotoEditorState) (idx : Int) : Option PersistedRecord :=
  match getSerializableState hist idx with
  | none => slot
  | some rec => some rec

/-- Per-snapshot reconstruction step of `handleLoadProject`
(src/components/PhotoEditor.tsx lines 356-365): decode the placeholder back
into a file when present; a decode failure fails the snapshot. -/
def decodeSnapshot (s : SerializableSnapshot) : Option PhotoEditorState :=
  match s.originalFileData with
  | none => some ⟨none, s.imageSrc, s.editedImageSrc, s.activeFilter⟩
  | some fd =>
    match dataUrlToFile fd.dataUrl fd.name with
    | none => none
    | some f => some ⟨some f, s.imageSrc, s.editedImageSrc, s.activeFilter⟩

/-- The `Promise.all` over all snapshots: fail-fast reconstruction — any
single decode failure makes the whole reconstruction fail. -/
def reconstructHistory : List SerializableSnapshot → Option (List PhotoEditorState)
  | [] => some []
  | s :: rest =>
    match decodeSnapshot s, reconstructHistory rest with
    | some st, some t => some (st :: t)
    | _, _ => none

/-- Outcome of a load attempt: no saved record, one aggregate decode error
(the single `catch`/`alert` of `handleLoadProject`), or a completed
reconstruction handed to `loadHistory`. -/
inductive LoadOutcome
  | noSaved
  | loadError
  | attempted
deriving DecidableEq

/-- `handleLoadProject` (src/components/PhotoEditor.tsx lines 348-373): on
any decode failure the whole load aborts in the single `catch` block and the
history store is never touched; on success the reconstructed sequence and
cursor are handed to `loadHistory`. -/
def handleLoadProject (st : HistoryStore PhotoEditorState)
    (saved : Option PersistedRecord) : HistoryStore PhotoEditorState × LoadOutcome :=
  match saved with
  | none => (st, .noSaved)
  | some rec =>
    match reconstructHistory rec.history with
    | none => (st, .loadError)
    | some hist => (loadHistory st hist rec.currentIndex, .attempted)

/-- Well-formedness of a file for the modelled codec: the mime type
contains no `;` and every content byte is a byte. -/
def fileOK (f : FileHandle) : Bool :=
  f.mime.data.all (fun c => c != ';') && f.content.all (fun b => decide (b < 256))

/-- A snapshot whose optional file is well-formed for the modelled codec. -/
def snapshotFileOK (s : PhotoEditorState) : Bool :=
  match s.originalFile with
  | none => true
  | some f => fileOK f

/-- The guard of `getSerializableState` as a predicate: non-empty history
whose first snapshot has a truthy `imageSrc`. -/
def serializeReady : List PhotoEditorState → Bool
  | [] => false
  | h0 :: _ => !strFalsy h0.imageSrc

/-!
Autosave pipeline (src/hooks/useAutoSave.ts lines 12-75).

The debounce effect and its timers are browser event-loop behaviour; they
are modelled as a small state machine: `observeChange t` is one run of the
data-change effect (lines 46-66) at time `t` — the first run only flips the
`isMounted` ref, later runs clear any pending timeout and arm a new one
2500 ms ahead — and `timerFire t` is the event-loop delivering a timeout at
time `t`, which invokes the save path only if it is the currently armed
timeout (a cleared timeout never fires). -/
structure DebounceState where
  isMounted : Bool
  pending : Option Nat
  saveTimes : List Nat
deriving DecidableEq

/-- State before the initial mount: `isMounted` ref starts `false`
(src/hooks/useAutoSave.ts line 23), no timer, no saves. -/
def initialDebounce : DebounceState := ⟨false, none, []⟩

/-- One run of the debounce effect at time `t`
(src/hooks/useAutoSave.ts lines 46-66). -/
def observeChange (t : Nat) (s : DebounceState) : DebounceState :=
  if s.isMounted = false then ⟨true, s.pending, s.saveTimes⟩
  else ⟨true, some (t + 2500), s.saveTimes⟩

/-- Delivery of a timeout at time `t`: only the currently armed deadline
fires (a rearmed timer cancelled the old one via `clearTimeout`); firing
invokes the save path once. -/
def timerFire (t : Nat) (s : DebounceState) : DebounceState :=
  match s.pending with
  | some tf => if tf = t then ⟨s.isMounted, none, s.saveTimes ++ [t]⟩ else s
  | none => s

/-- `SaveStatus` (src/hooks/useAutoSave.ts line 3). -/
inductive SaveStatus
  | idle
  | saving
  | saved
  | error
deriving DecidableEq

/-- In-flight bookkeeping for `performSave`
(src/hooks/useAutoSave.ts lines 32-43): `inFlight` counts saves that have
started and not yet finished. -/
structure SaveFlight where
  inFlight : Nat
  status : SaveStatus
deriving DecidableEq

/-- Entry into `performSave`: the function body begins with
`setStatus('saving')` and the `await` of the callback unconditionally —
there is no in-flight check, so every trigger starts a save. -/
def startSave (m : SaveFlight) : SaveFlight :=
  ⟨m.inFlight + 1, .saving⟩

/-- Completion of one save: status becomes `saved` or `error` depending on
the callback outcome. -/
def finishSave (ok : Bool) (m : SaveFlight) : SaveFlight :=
  ⟨m.inFlight - 1, if ok then .saved else .error⟩

/-! Auxiliary lemmas about lists and the operations above. -/

theorem getD_take (l : List α) (m n : Nat) (d : α) (h : n < m) :
    (l.take m).getD n d = l.getD n d := by
  induction l generalizing m n with
  | nil => simp
  | cons a t ih =>
    cases m with
    | zero => omega
    | succ m =>
      cases n with
      | zero => simp
      | succ n => simpa using ih m n (by omega)

theorem getD_append_left (l r : List α) (n : Nat) (d : α) (h : n < l.length) :
    (l ++ r).getD n d = l.getD n d := by
  induction l generalizing n with
  | nil => simp at h
  | cons a t ih =>
    cases n with
    | zero => simp
    | succ n => simpa using ih n (by simpa using h)

theorem getD_append_self (l : List α) (c : α) (d : α) :
    (l ++ [c]).getD l.length d = c := by
  induction l with
  | nil => simp
  | cons a t ih => simp [ih]

theorem getD_drop (l : List α) (a k : Nat) (d : α) :
    (l.drop a).getD k d = l.getD (a + k) d := by
  induction l generalizing a with
  | nil => simp
  | cons x xs ih =>
    cases a with
    | zero => simp
    | succ a =>
      have : a + 1 + k = (a + k) + 1 := by omega
      rw [this, List.drop_succ_cons, List.getD_cons_succ, ih]

theorem evict_none (l : List T) : evict none l = l := by
  induction l with
  | nil => rfl
  | cons x xs ih => simp [evict, overLimit]

theorem evict_some (L : Nat) (l : List T) :
    evict (some L) l = l.drop (l.length - L) := by
  induction l with
  | nil => simp [evict]
  | cons x xs ih =>
    by_cases h : L < (x :: xs).length
    · rw [evict, if_pos (by simpa [overLimit] using h), ih]
      have h1 : (x :: xs).length - L = (xs.length - L) + 1 := by
        simp only [List.length_cons] at h ⊢; omega
      rw [h1, List.drop_succ_cons]
    · rw [evict, if_neg (by simpa [overLimit] using h)]
      have h1 : (x :: xs).length - L = 0 := by
        simp only [List.length_cons] at h ⊢; omega
      rw [h1, List.drop_zero]

theorem evict_eq_drop (limit : Option Nat) (l : List T) :
    evict limit l = l.drop (evictedCount limit l.length) := by
  cases limit with
  | none => simp [evict_none, evictedCount]
  | some L => simp [evict_some, evictedCount]

theorem length_evict (limit : Option Nat) (l : List T) :
    (evict limit l).length = l.length - evictedCount limit l.length := by
  rw [evict_eq_drop, List.length_drop]

theorem evict_append_evict (limit : Option Nat) (l r : List T) :
    evict limit (evict limit l ++ r) = evict limit (l ++ r) := by
  cases limit with
  | none => rw [evict_none, evict_none, evict_none]
  | some L =>
    rw [evict_some, evict_some, evict_some]
    have h1 : l.length - L ≤ l.length := Nat.sub_le _ _
    rw [← List.drop_append_of_le_length h1, List.drop_drop]
    congr 1
    simp only [List.length_append, List.length_drop]
    omega

theorem setState_of_eq [Inhabited T] (serial : T → String) (limit : Option Nat)
    (st : HistoryStore T) (c : T) (h : serial c = serial st.current) :
    setState serial limit st c = st := by
  simp only [setState, if_pos h]

theorem setState_of_ne [Inhabited T] (serial : T → String) (limit : Option Nat)
    (st : HistoryStore T) (c : T) (h : serial c ≠ serial st.current) :
    setState serial limit st c =
      ⟨evict limit (st.history.take (st.currentIndex + 1) ++ [c]),
       (evict limit (st.history.take (st.currentIndex + 1) ++ [c])).length - 1⟩ := by
  simp only [setState, if_neg h]

theorem setState_history_of_ne [Inhabited T] (serial : T → String) (limit : Option Nat)
    (st : HistoryStore T) (c : T) (h : serial c ≠ serial st.current) :
    (setState serial limit st c).history =
      evict limit (st.history.take (st.currentIndex + 1) ++ [c]) := by
  rw [setState_of_ne serial limit st c h]

theorem setState_currentIndex_of_ne [Inhabited T] (serial : T → String) (limit : Option Nat)
    (st : HistoryStore T) (c : T) (h : serial c ≠ serial st.current) :
    (setState serial limit st c).currentIndex =
      (evict limit (st.history.take (st.currentIndex + 1) ++ [c])).length - 1 := by
  rw [setState_of_ne serial limit st c h]

theorem evictedCount_le (limit : Option Nat) (l : List T) (c : T)
    (hL : limitOK limit = true) :
    evictedCount limit (l ++ [c]).length ≤ l.length := by
  cases limit with
  | none => simp [evictedCount]
  | some L =>
    have hL1 : 1 ≤ L := by simpa [limitOK] using hL
    simp only [evictedCount, List.length_append, List.length_cons, List.length_nil]
    omega

theorem setState_Inv [Inhabited T] (serial : T → String) (limit : Option Nat)
    (st : HistoryStore T) (c : T) (hL : limitOK limit = true) (hInv : Inv st) :
    Inv (setState serial limit st c) := by
  obtain ⟨hlen, hcur⟩ := hInv
  by_cases h : serial c = serial st.current
  · rw [setState_of_eq serial limit st c h]; exact ⟨hlen, hcur⟩
  · have hd := evictedCount_le limit (st.history.take (st.currentIndex + 1)) c hL
    have hE := length_evict limit (st.history.take (st.currentIndex + 1) ++ [c])
    have hA : (st.history.take (st.currentIndex + 1) ++ [c]).length =
        (st.history.take (st.currentIndex + 1)).length + 1 := by simp
    have hElen :
        1 ≤ (evict limit (st.history.take (st.currentIndex + 1) ++ [c])).length := by
      omega
    exact ⟨by rw [setState_history_of_ne serial limit st c h]; exact hElen,
      by rw [setState_currentIndex_of_ne serial limit st c h,
        setState_history_of_ne serial limit st c h]; omega⟩

theorem setState_current_of_ne [Inhabited T] (serial : T → String) (limit : Option Nat)
    (st : HistoryStore T) (c : T) (hL : limitOK limit = true)
    (h : serial c ≠ serial st.current) :
    (setState serial limit st c).current = c := by
  have hd := evictedCount_le limit (st.history.take (st.currentIndex + 1)) c hL
  rw [HistoryStore.current, setState_currentIndex_of_ne serial limit st c h,
    setState_history_of_ne serial limit st c h, evict_eq_drop,
    List.drop_append_of_le_length hd]
  have hlen :
      ((st.history.take (st.currentIndex + 1)).drop
          (evictedCount limit (st.history.take (st.currentIndex + 1) ++ [c]).length)
        ++ [c]).length - 1 =
      ((st.history.take (st.currentIndex + 1)).drop
          (evictedCount limit (st.history.take (st.currentIndex + 1) ++ [c]).length)).length := by
    simp
  rw [hlen, getD_append_self]

theorem undoCalls_le (n : Nat) (st : HistoryStore T) (h : n ≤ st.currentIndex) :
    undoCalls n st = ⟨st.history, st.currentIndex - n⟩ := by
  induction n generalizing st with
  | zero => simp [undoCalls]
  | succ n ih =>
    show undoCalls n (undo st) = _
    rw [undo, if_pos (show 0 < st.currentIndex by omega)]
    rw [ih ⟨st.history, st.currentIndex - 1⟩ (show n ≤ st.currentIndex - 1 by omega)]
    simp only [HistoryStore.mk.injEq]
    exact ⟨trivial, by omega⟩

theorem chainDistinct_cons (serial : T → String) (a b : T) (rest : List T)
    (h : chainDistinct serial a (b :: rest) = true) :
    serial a ≠ serial b ∧ chainDistinct serial b rest = true := by
  simpa only [chainDistinct, Bool.and_eq_true, bne_iff_ne, ne_eq] using h

/-- Shape of a run of distinct commits: the retained prefix `[0..cursor]`
followed by all committed states, evicted from the front to the limit,
with the cursor on the last entry. -/
theorem commitMany_shape [Inhabited T] (serial : T → String) (limit : Option Nat)
    (hL : limitOK limit = true) (cs : List T) :
    ∀ st : HistoryStore T, Inv st → cs ≠ [] →
      chainDistinct serial st.current cs = true →
      commitMany serial limit st cs =
        ⟨evict limit (st.history.take (st.currentIndex + 1) ++ cs),
         (evict limit (st.history.take (st.currentIndex + 1) ++ cs)).length - 1⟩ := by
  induction cs with
  | nil => intro st _ hne _; exact absurd rfl hne
  | cons c rest ih =>
    intro st hInv _ hchain
    obtain ⟨hd, hrest⟩ := chainDistinct_cons serial st.current c rest hchain
    have hd' : serial c ≠ serial st.current := fun e => hd e.symm
    cases rest with
    | nil =>
      show setState serial limit st c = _
      rw [setState_of_ne serial limit st c hd']
    | cons c2 rest2 =>
      show commitMany serial limit (setState serial limit st c) (c2 :: rest2) = _
      have h1 := setState_history_of_ne serial limit st c hd'
      have h2 := setState_currentIndex_of_ne serial limit st c hd'
      have hInv1 : Inv (setState serial limit st c) := setState_Inv serial limit st c hL hInv
      have hcur1 : (setState serial limit st c).current = c :=
        setState_current_of_ne serial limit st c hL hd'
      have hchain1 :
          chainDistinct serial (setState serial limit st c).current (c2 :: rest2) = true := by
        rw [hcur1]; exact hrest
      rw [ih (setState serial limit st c) hInv1 (by simp) hchain1]
      have htake : (setState serial limit st c).history.take
          ((setState serial limit st c).currentIndex + 1) =
          (setState serial limit st c).history := by
        obtain ⟨hlen1, _⟩ := hInv1
        rw [h2, h1]
        rw [h1] at hlen1
        have he : (evict limit (st.history.take (st.currentIndex + 1) ++ [c])).length - 1 + 1 =
            (evict limit (st.history.take (st.currentIndex + 1) ++ [c])).length := by omega
        rw [he, List.take_length]
      rw [htake, h1, evict_append_evict]
      have hassoc : st.history.take (st.currentIndex + 1) ++ [c] ++ (c2 :: rest2) =
          st.history.take (st.currentIndex + 1) ++ (c :: c2 :: rest2) := by simp
      rw [hassoc]

/-- C1: for every state `next` whose serializable projection differs from the
current snapshot's, `commit(next)` (the source's `setState`) truncates the
sequence to `[0..cursor]`, appends `next`, and sets the cursor to the new last
index; if the resulting length exceeds the configured limit `L`, entries are
evicted from the front until the length is `L` and the cursor is decremented
by the number evicted (Nat subtraction clamps it at 0); if the serializable
projections are equal, commit is a no-op. -/
theorem commit_dedup_truncate_evict_c1 [Inhabited T] (serial : T → String)
    (limit : Option Nat) (st : HistoryStore T) (next : T) :
    (serial next = serial st.current → setState serial limit st next = st) ∧
    (serial next ≠ serial st.current →
      (setState serial limit st next).history =
        (st.history.take (st.currentIndex + 1) ++ [next]).drop
          (evictedCount limit (st.history.take (st.currentIndex + 1) ++ [next]).length) ∧
      (setState serial limit st next).currentIndex =
        ((st.history.take (st.currentIndex + 1) ++ [next]).length - 1) -
          evictedCount limit (st.history.take (st.currentIndex + 1) ++ [next]).length ∧
      ∀ L, limit = some L → 1 ≤ L →
        L < (st.history.take (st.currentIndex + 1) ++ [next]).length →
        (setState serial limit st next).history.length = L) := by
  constructor
  · exact setState_of_eq serial limit st next
  · intro h
    refine ⟨?_, ?_, ?_⟩
    · rw [setState_history_of_ne serial limit st next h, evict_eq_drop]
    · rw [setState_currentIndex_of_ne serial limit st next h, length_evict]
      omega
    · intro L hL _ hlen
      subst hL
      rw [setState_history_of_ne serial (some L) st next h, length_evict]
      simp only [evictedCount] at hlen ⊢
      omega

theorem commit_dedup_truncate_evict_c1_witness :
    (setState id (some 2) (⟨["a", "b"], 1⟩ : HistoryStore String) "c").history = ["b", "c"] ∧
    (setState id (some 2) (⟨["a", "b"], 1⟩ : HistoryStore String) "c").currentIndex = 1 ∧
    setState id (some 2) (⟨["a", "a"], 1⟩ : HistoryStore String) "a" = ⟨["a", "a"], 1⟩ := by
  have h := (commit_dedup_truncate_evict_c1 id (some 2)
    (⟨["a", "b"], 1⟩ : HistoryStore String) "c").2 (by decide)
  have h2 := (commit_dedup_truncate_evict_c1 id (some 2)
    (⟨["a", "a"], 1⟩ : HistoryStore String) "a").1 (by decide)
  exact ⟨h.1.trans (by decide), h.2.1.trans (by decide), h2⟩

/-- C2: every operation of the history store (`commit`, `undo`, `redo`,
`reset`, `loadHistory`), applied under the precondition `limit L ≥ 1` to a
store satisfying `length ≥ 1` and `0 ≤ cursor < length`, yields a store that
still satisfies `length ≥ 1` and `0 ≤ cursor < length`. -/
theorem history_invariant_preserved_c2 [Inhabited T] (serial : T → String)
    (limit : Option Nat) (st : HistoryStore T) (next : T) (seq : List T) (idx : Int)
    (hL : limitOK limit = true) (hInv : Inv st) :
    Inv (setState serial limit st next) ∧ Inv (undo st) ∧ Inv (redo st) ∧
    Inv (reset st next) ∧ Inv (loadHistory st seq idx) := by
  have hset := setState_Inv serial limit st next hL hInv
  obtain ⟨hlen, hcur⟩ := hInv
  refine ⟨hset, ?_, ?_, ?_, ?_⟩
  · by_cases h : 0 < st.currentIndex
    · rw [undo, if_pos h]
      exact ⟨hlen, show st.currentIndex - 1 < st.history.length by omega⟩
    · rw [undo, if_neg h]; exact ⟨hlen, hcur⟩
  · by_cases h : st.currentIndex < st.history.length - 1
    · rw [redo, if_pos h]
      exact ⟨hlen, show st.currentIndex + 1 < st.history.length by omega⟩
    · rw [redo, if_neg h]; exact ⟨hlen, hcur⟩
  · exact ⟨by simp [reset], by simp [reset]⟩
  · by_cases h : 0 < seq.length ∧ 0 ≤ idx ∧ idx < (seq.length : Int)
    · rw [loadHistory, if_pos h]
      obtain ⟨h1, h2, h3⟩ := h
      exact ⟨show 1 ≤ seq.length by omega, show idx.toNat < seq.length by omega⟩
    · rw [loadHistory, if_neg h]; exact ⟨hlen, hcur⟩

theorem history_invariant_preserved_c2_witness :
    Inv (setState id (some 2) (⟨["a"], 0⟩ : HistoryStore String) "b") ∧
    Inv (undo (⟨["a"], 0⟩ : HistoryStore String)) ∧
    Inv (redo (⟨["a"], 0⟩ : HistoryStore String)) ∧
    Inv (reset (⟨["a"], 0⟩ : HistoryStore String) "b") ∧
    Inv (loadHistory (⟨["a"], 0⟩ : HistoryStore String) ["x"] 0) :=
  history_invariant_preserved_c2 id (some 2) ⟨["a"], 0⟩ "b" ["x"] 0
    (by decide) (by decide)

/-- C4: `loadHistory(seq, idx)` with `seq` empty or `idx` outside
`[0, len(seq))` is rejected without mutating the store and raises no error;
for non-empty `seq` with `0 ≤ idx < len(seq)` the store's sequence becomes
`seq` and its cursor becomes `idx` atomically. -/
theorem loadHistory_validation_c4 (st : HistoryStore T) (seq : List T) (idx : Int) :
    ((seq = [] ∨ idx < 0 ∨ (seq.length : Int) ≤ idx) → loadHistory st seq idx = st) ∧
    (seq ≠ [] → 0 ≤ idx → idx < (seq.length : Int) →
      loadHistory st seq idx = ⟨seq, idx.toNat⟩) := by
  constructor
  · intro h
    rw [loadHistory, if_neg]
    rintro ⟨h1, h2, h3⟩
    rcases h with h | h | h
    · rw [h] at h1; simp at h1
    · omega
    · omega
  · intro h1 h2 h3
    rw [loadHistory, if_pos ⟨List.length_pos.mpr h1, h2, h3⟩]

theorem loadHistory_validation_c4_witness :
    loadHistory (⟨["a"], 0⟩ : HistoryStore String) [] 0 = ⟨["a"], 0⟩ ∧
    loadHistory (⟨["a"], 0⟩ : HistoryStore String) ["x", "y"] (-1) = ⟨["a"], 0⟩ ∧
    loadHistory (⟨["a"], 0⟩ : HistoryStore String) ["x", "y"] 1 = ⟨["x", "y"], 1⟩ :=
  ⟨(loadHistory_validation_c4 ⟨["a"], 0⟩ [] 0).1 (Or.inl rfl),
   (loadHistory_validation_c4 ⟨["a"], 0⟩ ["x", "y"] (-1)).1 (Or.inr (Or.inl (by decide))),
   (loadHistory_validation_c4 ⟨["a"], 0⟩ ["x", "y"] 1).2 (by decide) (by decide) (by decide)⟩

/-- C10 counterexample: with the default limit (`Infinity`) a commit of a
distinct state need not increase the length by one.  From `⟨["a","b","c"], 0⟩`
(cursor not at the last index) committing the distinct state `"d"` truncates
the redo branch: the length becomes 2, not 3 + 1 as the claim states. -/
theorem commit_default_limit_c10_counterexample :
    id "d" ≠ id ((⟨["a", "b", "c"], 0⟩ : HistoryStore String).current) ∧
    (setState id none (⟨["a", "b", "c"], 0⟩ : HistoryStore String) "d").history = ["a", "d"] ∧
    (setState id none (⟨["a", "b", "c"], 0⟩ : HistoryStore String) "d").history.length ≠
      (⟨["a", "b", "c"], 0⟩ : HistoryStore String).history.length + 1 := by
  decide

/-- C10 (amended): when the store is constructed without a limit option the
limit defaults to `Infinity` (`none`): no commit ever evicts an entry, and
every commit of a state whose serializable projection differs from the
current one makes the sequence the retained prefix `[0..cursor]` plus the
new entry, so the new length is `cursor + 2`; the length strictly increases
by one exactly when the cursor was at the last index. -/
theorem commit_default_limit_c10 [Inhabited T] (serial : T → String)
    (st : HistoryStore T) (next : T) (hInv : Inv st)
    (hne : serial next ≠ serial st.current) :
    (setState serial none st next).history =
      st.history.take (st.currentIndex + 1) ++ [next] ∧
    (setState serial none st next).history.length = st.currentIndex + 2 ∧
    (st.currentIndex = st.history.length - 1 →
      (setState serial none st next).history.length = st.history.length + 1) := by
  obtain ⟨hlen, hcur⟩ := hInv
  have h1 := setState_history_of_ne serial none st next hne
  rw [evict_none] at h1
  have hA : (st.history.take (st.currentIndex + 1) ++ [next]).length =
      st.currentIndex + 2 := by
    simp only [List.length_append, List.length_take, List.length_cons, List.length_nil]
    omega
  refine ⟨h1, ?_, ?_⟩
  · rw [h1, hA]
  · intro h
    rw [h1, hA]
    omega

theorem commit_default_limit_c10_witness :
    (setState id none (⟨["a", "b"], 1⟩ : HistoryStore String) "c").history =
      ["a", "b", "c"] ∧
    (setState id none (⟨["a", "b"], 1⟩ : HistoryStore String) "c").history.length = 3 ∧
    (setState id none (⟨["a", "b"], 1⟩ : HistoryStore String) "c").history.length = 2 + 1 := by
  have h := commit_default_limit_c10 id (⟨["a", "b"], 1⟩ : HistoryStore String) "c"
    (by decide) (by decide)
  exact ⟨h.1.trans (by decide), h.2.1.trans (by decide), (h.2.2 (by decide)).trans (by decide)⟩

/-- C3 counterexample: with `limit = 1`, committing `N = 1` distinct state
(`N ≤ limit` as the claim requires) and then calling `undo()` once does NOT
return to the state held one commit ago: the eviction caused by the commit
dropped that state, so the store still shows the newly committed state. -/
theorem undo_redo_navigation_c3_counterexample :
    id "b" ≠ id ((⟨["a"], 0⟩ : HistoryStore String).current) ∧
    (⟨["a"], 0⟩ : HistoryStore String).current = "a" ∧
    (undoCalls 1 (commitMany id (some 1) (⟨["a"], 0⟩ : HistoryStore String) ["b"])).current ≠
      (⟨["a"], 0⟩ : HistoryStore String).current := by
  decide

/-- C3 (amended): `undo()` decrements the cursor by one when `cursor > 0` and
is a no-op otherwise (it is total, hence never errors), `redo()` increments
the cursor by one when `cursor < length - 1` and is a no-op otherwise, and
neither modifies the snapshot sequence; calling `undo()` `N` times after `N`
distinct commits returns to the state held `N` commits ago provided
`N + 1 ≤ limit` (so that eviction cannot drop that state — for `N = limit`
the oldest entry, which is exactly the state `N` commits ago, is evicted);
and a commit of a distinct state discards all entries beyond the cursor. -/
theorem undo_redo_navigation_c3 [Inhabited T] (serial : T → String)
    (limit : Option Nat) (st : HistoryStore T) (cs : List T)
    (hL : limitOK limit = true) (hInv : Inv st) (hne : cs ≠ [])
    (hchain : chainDistinct serial st.current cs = true)
    (hN : withinLimit limit (cs.length + 1) = true) :
    (∀ s : HistoryStore T,
      (0 < s.currentIndex → undo s = ⟨s.history, s.currentIndex - 1⟩) ∧
      (s.currentIndex = 0 → undo s = s) ∧
      (s.currentIndex < s.history.length - 1 → redo s = ⟨s.history, s.currentIndex + 1⟩) ∧
      (¬ s.currentIndex < s.history.length - 1 → redo s = s) ∧
      (undo s).history = s.history ∧ (redo s).history = s.history) ∧
    (undoCalls cs.length (commitMany serial limit st cs)).current = st.current ∧
    (∀ (c : T) (s : HistoryStore T), serial c ≠ serial s.current →
      (setState serial limit s c).history =
        evict limit (s.history.take (s.currentIndex + 1) ++ [c])) := by
  refine ⟨?_, ?_, ?_⟩
  · intro s
    refine ⟨?_, ?_, ?_, ?_, ?_, ?_⟩
    · intro h; rw [undo, if_pos h]
    · intro h; rw [undo, if_neg (by omega)]
    · intro h; rw [redo, if_pos h]
    · intro h; rw [redo, if_neg h]
    · rw [undo]; split <;> rfl
    · rw [redo]; split <;> rfl
  · have hshape := commitMany_shape serial limit hL cs st hInv hne hchain
    obtain ⟨hlen, hcur⟩ := hInv
    have hBlen : (st.history.take (st.currentIndex + 1)).length = st.currentIndex + 1 := by
      rw [List.length_take]; omega
    set k := evictedCount limit (st.history.take (st.currentIndex + 1) ++ cs).length with hk
    have hd1 : k ≤ (st.history.take (st.currentIndex + 1)).length - 1 := by
      rw [hk]
      cases limit with
      | none => simp [evictedCount]
      | some L =>
        have hN' : cs.length + 1 ≤ L := by simpa [withinLimit] using hN
        simp only [evictedCount, List.length_append]
        omega
    have hElen := length_evict limit (st.history.take (st.currentIndex + 1) ++ cs)
    have hNle : cs.length ≤
        (evict limit (st.history.take (st.currentIndex + 1) ++ cs)).length - 1 := by
      rw [hElen, ← hk]
      simp only [List.length_append] at hd1 ⊢
      omega
    rw [hshape, undoCalls_le cs.length _ hNle]
    dsimp only
    rw [HistoryStore.current, HistoryStore.current]
    dsimp only
    rw [evict_eq_drop, ← hk, getD_drop]
    have harg : k + (((st.history.take (st.currentIndex + 1) ++ cs).drop k).length -
        1 - cs.length) = st.currentIndex := by
      rw [List.length_drop]
      simp only [List.length_append]
      rw [hBlen] at hd1 ⊢
      omega
    rw [harg, getD_append_left _ _ _ _ (by omega), getD_take _ _ _ _ (by omega)]
  · intro c s h
    exact setState_history_of_ne serial limit s c h

theorem undo_redo_navigation_c3_witness :
    (undoCalls 2 (commitMany id (some 3) (⟨["a"], 0⟩ : HistoryStore String)
      ["b", "c"])).current = (⟨["a"], 0⟩ : HistoryStore String).current ∧
    undo (⟨["a", "b"], 1⟩ : HistoryStore String) = ⟨["a", "b"], 0⟩ := by
  have h := undo_redo_navigation_c3 id (some 3) (⟨["a"], 0⟩ : HistoryStore String)
    ["b", "c"] (by decide) (by decide) (by decide) (by decide) (by decide)
  exact ⟨h.2.1, ((h.1 ⟨["a", "b"], 1⟩).1 (by decide)).trans (by decide)⟩

/-! Round-trip lemmas for the modelled platform codec. -/

theorem charVal_digitChar (d : Nat) (h : d < 10) : charVal (digitChar d) = some d := by
  interval_cases d <;> decide

theorem parseBytes_encBytes (bs : List Nat) (h : ∀ b ∈ bs, b < 256) :
    parseBytes (encBytes bs) = some bs := by
  induction bs with
  | nil => rfl
  | cons b rest ih =>
    have hb : b < 256 := h b (List.mem_cons_self b rest)
    have hrest := ih (fun x hx => h x (List.mem_cons_of_mem b hx))
    have h1 : charVal (digitChar (b / 100)) = some (b / 100) :=
      charVal_digitChar _ (by omega)
    have h2 : charVal (digitChar (b / 10 % 10)) = some (b / 10 % 10) :=
      charVal_digitChar _ (by omega)
    have h3 : charVal (digitChar (b % 10)) = some (b % 10) :=
      charVal_digitChar _ (by omega)
    have hrec : 100 * (b / 100) + 10 * (b / 10 % 10) + b % 10 = b := by omega
    show parseBytes (byteChars b ++ encBytes rest) = some (b :: rest)
    simp only [byteChars, List.cons_append, List.nil_append, List.append_eq,
      parseBytes, h1, h2, h3, hrest, hrec]

theorem stripHead_append (e l : List Char) : stripHead e (e ++ l) = some l := by
  induction e with
  | nil => rfl
  | cons c cs ih => simp [stripHead, ih]

theorem takeWhile_append_of_all (p : Char → Bool) (l : List Char) (c : Char)
    (r : List Char) (hl : ∀ a ∈ l, p a = true) (hc : p c = false) :
    (l ++ c :: r).takeWhile p = l ∧ (l ++ c :: r).dropWhile p = c :: r := by
  induction l with
  | nil => simp [List.takeWhile_cons, List.dropWhile_cons, hc]
  | cons a t ih =>
    have ha : p a = true := hl a (List.mem_cons_self a t)
    have h' := ih (fun x hx => hl x (List.mem_cons_of_mem a hx))
    simp [List.takeWhile_cons, List.dropWhile_cons, ha, h'.1, h'.2]

theorem parseDataUrlChars_encode (f : FileHandle) (hOK : fileOK f = true) :
    parseDataUrlChars (encodeDataUrlChars f) = some (f.mime, f.content) := by
  obtain ⟨fname, fmime, fcontent⟩ := f
  obtain ⟨md⟩ := fmime
  have hOK' := hOK
  simp only [fileOK, Bool.and_eq_true, List.all_eq_true] at hOK'
  obtain ⟨hm, hb⟩ := hOK'
  have hb' : ∀ b ∈ fcontent, b < 256 := fun b hbb => by
    simpa using hb b hbb
  have hshape : encodeDataUrlChars ⟨fname, ⟨md⟩, fcontent⟩ =
      dataUrlHead ++ (md ++ (';' :: (['b', 'a', 's', 'e', '6', '4', ','] ++
        encBytes fcontent))) := by
    simp [encodeDataUrlChars, dataUrlHead, base64Marker]
  have hsplit := takeWhile_append_of_all (fun c => c != ';') md ';'
    (['b', 'a', 's', 'e', '6', '4', ','] ++ encBytes fcontent) hm (by decide)
  have hstrip2 : stripHead base64Marker
      (';' :: (['b', 'a', 's', 'e', '6', '4', ','] ++ encBytes fcontent)) =
      some (encBytes fcontent) :=
    stripHead_append base64Marker (encBytes fcontent)
  rw [hshape]
  unfold parseDataUrlChars
  rw [stripHead_append, Option.some_bind, hsplit.2, hstrip2, Option.some_bind,
    parseBytes_encBytes fcontent hb', Option.map_some', hsplit.1]

theorem dataUrlToFile_encodeDataUrl (f : FileHandle) (n : String)
    (hOK : fileOK f = true) :
    dataUrlToFile (encodeDataUrl f) n = some ⟨n, f.mime, f.content⟩ := by
  unfold dataUrlToFile
  have hdata : (encodeDataUrl f).data = encodeDataUrlChars f := rfl
  rw [hdata, parseDataUrlChars_encode f hOK, Option.map_some']

theorem decodeSnapshot_serializeSnapshot (s : PhotoEditorState)
    (h : snapshotFileOK s = true) :
    decodeSnapshot (serializeSnapshot s) = some s := by
  obtain ⟨of, isrc, esrc, af⟩ := s
  cases of with
  | none => rfl
  | some f =>
    have hOK : fileOK f = true := by simpa [snapshotFileOK] using h
    obtain ⟨fn, fm, fc⟩ := f
    simp [serializeSnapshot, decodeSnapshot,
      dataUrlToFile_encodeDataUrl ⟨fn, fm, fc⟩ fn hOK]

theorem reconstructHistory_map (hist : List PhotoEditorState)
    (hOK : hist.all snapshotFileOK = true) :
    reconstructHistory (hist.map serializeSnapshot) = some hist := by
  induction hist with
  | nil => rfl
  | cons h0 t ih =>
    simp only [List.all_cons, Bool.and_eq_true] at hOK
    have hd := decodeSnapshot_serializeSnapshot h0 hOK.1
    have ht := ih hOK.2
    simp [reconstructHistory, hd, ht]

theorem reconstructHistory_none (snaps : List SerializableSnapshot)
    (s : SerializableSnapshot) (hmem : s ∈ snaps) (hf : decodeSnapshot s = none) :
    reconstructHistory snaps = none := by
  induction snaps with
  | nil => cases hmem
  | cons a rest ih =>
    rcases List.mem_cons.mp hmem with h | h
    · subst h
      cases hrec : reconstructHistory rest <;> simp [reconstructHistory, hf, hrec]
    · cases hd : decodeSnapshot a <;> simp [reconstructHistory, hd, ih h]

/-- C5 counterexample: a history whose authoritative (current, cursor = 1)
snapshot carries no binary payload and no image at all — the project is
empty at the cursor — but whose FIRST snapshot has a truthy `imageSrc`:
the serialize path still returns a record (not "nothing to persist") and the
automatic save path overwrites the previously persisted record. -/
theorem autosave_empty_guard_c5_counterexample :
    ([⟨none, some "blob:x", none, ""⟩, ⟨none, none, none, ""⟩] :
        List PhotoEditorState).getD 1 ⟨none, none, none, ""⟩ =
      ⟨none, none, none, ""⟩ ∧
    (getSerializableState
      [⟨none, some "blob:x", none, ""⟩, ⟨none, none, none, ""⟩] 1).isSome = true ∧
    handleAutoSave (some ⟨[], 0⟩)
      [⟨none, some "blob:x", none, ""⟩, ⟨none, none, none, ""⟩] 1 ≠ some ⟨[], 0⟩ := by
  decide

/-- C5 (amended): the "nothing to persist" guard inspects the FIRST
snapshot, not the current one: whenever the sequence is empty or the first
snapshot's `imageSrc` is null or blank, the serialize path returns
"nothing to persist" and the automatic save path writes nothing, so a
previously valid persisted record is never overwritten with an empty or
blank one. -/
theorem autosave_empty_guard_c5 (hist : List PhotoEditorState) (idx : Int)
    (slot : Option PersistedRecord) (h : serializeReady hist = false) :
    getSerializableState hist idx = none ∧ handleAutoSave slot hist idx = slot := by
  have hser : getSerializableState hist idx = none := by
    cases hist with
    | nil => rfl
    | cons h0 t =>
      have hf : strFalsy h0.imageSrc = true := by simpa [serializeReady] using h
      simp [getSerializableState, hf]
  exact ⟨hser, by simp [handleAutoSave, hser]⟩

theorem autosave_empty_guard_c5_witness :
    getSerializableState [(⟨none, none, none, ""⟩ : PhotoEditorState)] 0 = none ∧
    handleAutoSave (some ⟨[], 0⟩) [(⟨none, none, none, ""⟩ : PhotoEditorState)] 0 =
      some ⟨[], 0⟩ :=
  autosave_empty_guard_c5 [⟨none, none, none, ""⟩] 0 (some ⟨[], 0⟩) (by decide)

/-- C6: for every persisted record in which at least one snapshot's binary
placeholder fails to decode, the load is fail-fast: the whole load aborts
with the single aggregate error outcome and the history store is returned
unchanged — no partial history is installed. -/
theorem load_failfast_c6 (st : HistoryStore PhotoEditorState) (rec : PersistedRecord)
    (s : SerializableSnapshot) (hmem : s ∈ rec.history)
    (hf : decodeSnapshot s = none) :
    handleLoadProject st (some rec) = (st, .loadError) := by
  have hrec : reconstructHistory rec.history = none :=
    reconstructHistory_none rec.history s hmem hf
  simp [handleLoadProject, hrec]

theorem load_failfast_c6_witness :
    handleLoadProject ⟨[⟨none, none, none, ""⟩], 0⟩
      (some ⟨[⟨none, none, none, "", some ⟨"garbage", "g.png"⟩⟩], 0⟩) =
    (⟨[⟨none, none, none, ""⟩], 0⟩, .loadError) :=
  load_failfast_c6 ⟨[⟨none, none, none, ""⟩], 0⟩
    ⟨[⟨none, none, none, "", some ⟨"garbage", "g.png"⟩⟩], 0⟩
    ⟨none, none, none, "", some ⟨"garbage", "g.png"⟩⟩ (by decide) (by decide)

/-- C7: for every history that the serialize path accepts (non-empty, first
snapshot with an image) with an in-range cursor and well-formed binary
payloads — including zero-length payloads — deserializing the serialized
record reproduces the history exactly: identical length, identical cursor,
identical non-binary fields and content-identical binary fields, and
`loadHistory` installs exactly that sequence and cursor. -/
theorem persistence_roundtrip_c7 (hist : List PhotoEditorState) (idx : Int)
    (st : HistoryStore PhotoEditorState)
    (hready : serializeReady hist = true)
    (hidx0 : 0 ≤ idx) (hidx1 : idx < (hist.length : Int))
    (hOK : hist.all snapshotFileOK = true) :
    ∃ rec, getSerializableState hist idx = some rec ∧
      rec.currentIndex = idx ∧
      rec.history.length = hist.length ∧
      reconstructHistory rec.history = some hist ∧
      handleLoadProject st (some rec) = (⟨hist, idx.toNat⟩, .attempted) := by
  cases hist with
  | nil => simp [serializeReady] at hready
  | cons h0 t =>
    have hfalsy : strFalsy h0.imageSrc = false := by simpa [serializeReady] using hready
    have hrec : reconstructHistory ((h0 :: t).map serializeSnapshot) = some (h0 :: t) :=
      reconstructHistory_map (h0 :: t) hOK
    refine ⟨⟨(h0 :: t).map serializeSnapshot, idx⟩, ?_, rfl, by simp, hrec, ?_⟩
    · simp [getSerializableState, hfalsy]
    · simp only [handleLoadProject, hrec]
      rw [loadHistory, if_pos ⟨by simp, hidx0, by simpa using hidx1⟩]

theorem persistence_roundtrip_c7_witness :
    ∃ rec, getSerializableState
        [(⟨some ⟨"img.png", "image/png", []⟩, some "blob:u", none, ""⟩ :
          PhotoEditorState)] 0 = some rec ∧
      rec.currentIndex = 0 ∧
      rec.history.length =
        [(⟨some ⟨"img.png", "image/png", []⟩, some "blob:u", none, ""⟩ :
          PhotoEditorState)].length ∧
      reconstructHistory rec.history =
        some [⟨some ⟨"img.png", "image/png", []⟩, some "blob:u", none, ""⟩] ∧
      handleLoadProject ⟨[⟨none, none, none, ""⟩], 0⟩ (some rec) =
        (⟨[⟨some ⟨"img.png", "image/png", []⟩, some "blob:u", none, ""⟩],
          (0 : Int).toNat⟩, .attempted) :=
  persistence_roundtrip_c7
    [⟨some ⟨"img.png", "image/png", []⟩, some "blob:u", none, ""⟩] 0
    ⟨[⟨none, none, none, ""⟩], 0⟩ (by decide) (by decide) (by decide) (by decide)

/-- C8: the very first observation (initial mount) arms no timer and never
by itself triggers a save; after mount, a single observed change at `t`
followed by an undisturbed debounce quantum triggers exactly one save at
`t + 2500`, no save occurs before the quantum elapses, and a further change
at `u` before expiry restarts the timer (the old deadline no longer fires,
the new one is `u + 2500`). -/
theorem autosave_debounce_c8 (t u v w : Nat) (s : DebounceState)
    (hm : s.isMounted = true) (hv : v < t + 2500) (hu : t < u) :
    (observeChange w initialDebounce).saveTimes = [] ∧
    (observeChange w initialDebounce).pending = none ∧
    (timerFire (t + 2500) (observeChange t s)).saveTimes = s.saveTimes ++ [t + 2500] ∧
    (timerFire v (observeChange t s)).saveTimes = s.saveTimes ∧
    (observeChange u (observeChange t s)).pending = some (u + 2500) ∧
    (timerFire (t + 2500) (observeChange u (observeChange t s))).saveTimes =
      s.saveTimes := by
  refine ⟨rfl, rfl, ?_, ?_, ?_, ?_⟩
  · simp [observeChange, hm, timerFire]
  · simp only [observeChange, hm]
    simp [timerFire, show ¬ (t + 2500 = v) by omega]
  · simp [observeChange, hm]
  · simp only [observeChange, hm]
    simp [timerFire, show ¬ (u + 2500 = t + 2500) by omega]

theorem autosave_debounce_c8_witness :
    (observeChange 5 initialDebounce).saveTimes = [] ∧
    (observeChange 5 initialDebounce).pending = none ∧
    (timerFire 2500 (observeChange 0 ⟨true, none, []⟩)).saveTimes = [] ++ [2500] ∧
    (timerFire 100 (observeChange 0 ⟨true, none, []⟩)).saveTimes = [] ∧
    (observeChange 1000 (observeChange 0 ⟨true, none, []⟩)).pending = some 3500 ∧
    (timerFire 2500 (observeChange 1000 (observeChange 0 ⟨true, none, []⟩))).saveTimes =
      [] := by
  have h := autosave_debounce_c8 0 1000 100 5 ⟨true, none, []⟩ rfl (by omega) (by omega)
  exact ⟨h.1, h.2.1, h.2.2.1, h.2.2.2.1, h.2.2.2.2.1.trans (by decide), h.2.2.2.2.2⟩

/-- C9: `performSave` (src/hooks/useAutoSave.ts lines 32-43) has no
single-flight guard: its body starts with `setStatus('saving')` and awaits
the callback unconditionally, so when the debounce and interval triggers
fire in the same tick both enter the save path and two saves are in flight
concurrently against the same durable key — the in-flight count reaches 2.
This demonstrates the defect the claim's guard is supposed to rule out. -/
theorem autosave_no_single_flight_c9 :
    (startSave (startSave ⟨0, .idle⟩)).inFlight = 2 ∧
    (startSave (startSave ⟨0, .idle⟩)).status = .saving ∧
    (finishSave true (startSave (startSave ⟨0, .idle⟩))).inFlight = 1 := by
  decide

end CreativeSuite
